import Mathlib

/-!
Verification of the PyQrack binding `pyqrack/qrack_simulator.py` against its
natural-language specification.

The Python binding code is embedded shallowly: each method of
`QrackSimulator` that a claim touches becomes a Lean definition translated
from its source.  The native Qrack engine itself is not part of this
repository (the sources contain only the binding layer), so where a claim
depends on engine behaviour the engine is modelled from the specification;
those definitions carry a doc comment starting with "Modelled from the
spec".  Python exceptions are modelled by `Except`; quantum amplitudes are
modelled exactly, as complex numbers with rational coordinates.
-/

namespace PyQrack

/-- Errors raised by the embedded Python code: `NameError` for an unbound
identifier, `RuntimeError` for an explicit `raise RuntimeError(msg)`. -/
inductive PyError where
  | nameError (id : String)
  | runtimeError (msg : String)
  deriving DecidableEq, Repr

/-- Complex numbers with rational coordinates: the exact scalar type of the
spec-modelled amplitude store (the spec's double-precision complex numbers,
idealized to exact arithmetic). -/
@[ext]
structure Cq where
  re : ℚ
  im : ℚ
  deriving DecidableEq, Repr

/-- The complex zero. -/
def Cq.zero : Cq := ⟨0, 0⟩

/-- The complex one. -/
def Cq.one : Cq := ⟨1, 0⟩

/-- Complex multiplication. -/
def cmul (z w : Cq) : Cq :=
  ⟨z.re * w.re - z.im * w.im, z.re * w.im + z.im * w.re⟩

/-- Squared magnitude of a complex number. -/
def normSq (z : Cq) : ℚ := z.re * z.re + z.im * z.im

/-- Complex division (division by zero yields zero, as in `ℚ`). -/
def cdiv (z w : Cq) : Cq :=
  ⟨(z.re * w.re + z.im * w.im) / normSq w, (z.im * w.re - z.re * w.im) / normSq w⟩

/-- The configuration bundle of recognized constructor options (spec section
4.2, keyword arguments of `QrackSimulator.__init__`). -/
structure QrackConfig where
  isMultiDevice : Bool
  isSchmidtDecompose : Bool
  isStabilizerHybrid : Bool
  isBinaryDecisionTree : Bool
  isPaged : Bool
  is1QbFusion : Bool
  isCpuGpuHybrid : Bool
  deriving DecidableEq, Repr

/-- The Python default values of the configuration keyword arguments. -/
def defaultConfig : QrackConfig :=
  ⟨true, true, true, false, true, true, true⟩

/-- Modelled from the spec: a Register, the top-level entity of the native
engine (which is not part of this repository; src/ holds only the binding).
It is modelled as a dense amplitude vector — a complex amplitude for each of
the `2 ^ numQubits` basis states, exposed as a function on basis indices —
together with the per-register randomness seed and the configuration bundle
it was created with. -/
structure Register where
  numQubits : Nat
  amps : Nat → Cq
  rng : Nat
  cfg : QrackConfig

/-- Modelled from the spec: a freshly allocated register of `n` qubits in the
all-zero basis state. -/
def freshRegister (n : Nat) (cfg : QrackConfig) : Register :=
  ⟨n, fun b => if b = 0 then Cq.one else Cq.zero, 0, cfg⟩

/-- Modelled from the spec: the process-wide native handle table, mapping
opaque simulator identifiers to Registers, plus the next identifier to hand
out. -/
structure NativeState where
  nextSid : Nat
  regs : List (Nat × Register)

/-- Find the register owned by a handle. -/
def NativeState.lookup (st : NativeState) (sid : Nat) : Option Register :=
  (st.regs.find? (fun p => p.1 == sid)).map (fun p => p.2)

/-- Allocate a fresh handle for a register. -/
def NativeState.alloc (st : NativeState) (r : Register) : Nat × NativeState :=
  (st.nextSid, ⟨st.nextSid + 1, (st.nextSid, r) :: st.regs⟩)

/-- Replace the register owned by a handle. -/
def NativeState.set (st : NativeState) (sid : Nat) (r : Register) : NativeState :=
  ⟨st.nextSid, (sid, r) :: st.regs.filter (fun p => !(p.1 == sid))⟩

/-- Release a handle and the register it owns. -/
def NativeState.remove (st : NativeState) (sid : Nat) : NativeState :=
  ⟨st.nextSid, st.regs.filter (fun p => !(p.1 == sid))⟩

/-- Every handle in the table is below the next identifier to hand out: the
well-formedness invariant of the handle table. -/
def StWF (st : NativeState) : Prop :=
  ∀ p ∈ st.regs, p.1 < st.nextSid

/-- Modelled from the spec: `init_count_type` creates a fresh Register with
the given qubit count and configuration bundle. -/
def initCountType (n : Nat) (cfg : QrackConfig) (st : NativeState) :
    Nat × NativeState :=
  st.alloc (freshRegister n cfg)

/-- Modelled from the spec: `init_clone` clones an existing Register's full
state into a new independent one.  An invalid source handle is a
precondition violation; it is arbitrarily modelled as allocating an empty
default register. -/
def initClone (src : Nat) (st : NativeState) : Nat × NativeState :=
  match st.lookup src with
  | some r => st.alloc r
  | none => st.alloc (freshRegister 0 defaultConfig)

/-- Modelled from the spec: `destroy` releases all resources owned by a
Register. -/
def destroyNative (sid : Nat) (st : NativeState) : NativeState :=
  st.remove sid

/-- Pauli basis labels, modelled from the repository's Pauli enumeration
(`pyqrack/pauli.py`, which is not included under src/). -/
inductive Pauli where
  | PauliI
  | PauliX
  | PauliY
  | PauliZ
  deriving DecidableEq, Repr

/-- A primitive binding call as issued by the foreign-gate translator
`run_pyzx_gates`.  Rotation angles are recorded exactly as the rational
multiple of pi that the source computes (`math.pi * gate.phase`). -/
inductive PrimCall where
  | r (b : Pauli) (piPhase : ℚ) (q : Nat)
  | z (q : Nat)
  | s (q : Nat)
  | t (q : Nat)
  | x (q : Nat)
  | h (q : Nat)
  | mcx (c : List Nat) (q : Nat)
  | mcz (c : List Nat) (q : Nat)
  | mch (c : List Nat) (q : Nat)
  | swap (q1 q2 : Nat)
  | mcr (b : Pauli) (piPhase : ℚ) (c : List Nat) (q : Nat)
  | phaseParity (piPhase : ℚ) (qs : List Nat)
  | fsim (theta phi : ℚ) (q1 q2 : Nat)
  deriving DecidableEq, Repr

/-- A foreign (pyzx) gate record: an abstract name plus the numeric and
qubit-index fields the translator reads. -/
structure PyzxGate where
  name : String
  phase : ℚ
  theta : ℚ
  phi : ℚ
  target : Nat
  control : Nat
  ctrl1 : Nat
  ctrl2 : Nat
  targets : List Nat
  deriving DecidableEq, Repr

/-- A foreign circuit: a qubit count plus a gate-record sequence. -/
structure PyzxCircuit where
  qubits : Nat
  gates : List PyzxGate
  deriving DecidableEq, Repr

/-- Translation of one foreign gate record into primitive binding calls: one
iteration of the dispatch chain in `QrackSimulator.run_pyzx_gates`.  After
the `ParityPhase` test fails, the source evaluates `game.name == 'FSim'`
where `game` is an unbound name, so every record reaching that point raises
`NameError: game`; the `FSim`, `CCZ` and `Tof` branches that follow are
unreachable dead code. -/
def runPyzxGate (g : PyzxGate) : Except PyError (List PrimCall) :=
  if g.name = "XPhase" then .ok [.r .PauliX g.phase g.target]
  else if g.name = "ZPhase" then .ok [.r .PauliZ g.phase g.target]
  else if g.name = "Z" then .ok [.z g.target]
  else if g.name = "S" then .ok [.s g.target]
  else if g.name = "T" then .ok [.t g.target]
  else if g.name = "NOT" then .ok [.x g.target]
  else if g.name = "HAD" then .ok [.h g.target]
  else if g.name = "CNOT" then .ok [.mcx [g.control] g.target]
  else if g.name = "CZ" then .ok [.mcz [g.control] g.target]
  else if g.name = "CX" then
    .ok [.h g.control, .mcx [g.control] g.target, .h g.control]
  else if g.name = "SWAP" then .ok [.swap g.control g.target]
  else if g.name = "CRZ" then .ok [.mcr .PauliZ g.phase [g.control] g.target]
  else if g.name = "CHAD" then .ok [.mch [g.control] g.target]
  else if g.name = "ParityPhase" then .ok [.phaseParity g.phase g.targets]
  else .error (.nameError "game")

/-- The gate names the dispatch chain of `run_pyzx_gates` recognizes. -/
def recognizedPyzxNames : List String :=
  ["XPhase", "ZPhase", "Z", "S", "T", "NOT", "HAD", "CNOT", "CZ", "CX",
   "SWAP", "CRZ", "CHAD", "ParityPhase", "FSim", "CCZ", "Tof"]

/-- The gate names tested before the broken `FSim` case of the chain. -/
def namesBeforeFSim : List String :=
  ["XPhase", "ZPhase", "Z", "S", "T", "NOT", "HAD", "CNOT", "CZ", "CX",
   "SWAP", "CRZ", "CHAD", "ParityPhase"]

/-- Apply one primitive call to the native state: the Gate Engine mutates the
addressed register in place (spec sections 2 and 4.3).  The concrete unitary
action on the amplitudes is a parameter `applyGate`, since no claim depends
on the numeric semantics of individual gates. -/
def applyPrim (applyGate : PrimCall → Register → Register) (sid : Nat)
    (st : NativeState) (p : PrimCall) : NativeState :=
  match st.lookup sid with
  | some r => st.set sid (applyGate p r)
  | none => st

/-- Embedding of `QrackSimulator.run_pyzx_gates`: translate and apply the
records in order, stopping at the first raised error. -/
def runPyzxGatesSt (applyGate : PrimCall → Register → Register) (sid : Nat)
    (gs : List PyzxGate) (st : NativeState) :
    NativeState × Except PyError Unit :=
  match gs with
  | [] => (st, .ok ())
  | g :: rest =>
    match runPyzxGate g with
    | .error e => (st, .error e)
    | .ok prims =>
      runPyzxGatesSt applyGate sid rest (prims.foldl (applyPrim applyGate sid) st)

/-- The message of the `RuntimeError` raised when both a qubit count and a
clone source are supplied to the constructor. -/
def cloneErrMsg : String :=
  "Cannot clone a QrackSimulator and specify its qubit length at the same time, in QrackSimulator constructor!"

/-- The qubit count the constructor actually checks: the pyzx circuit's
qubit count when a circuit is supplied, the `qubitCount` argument otherwise. -/
def effQC (pyzx : Option PyzxCircuit) (qubitCount : Int) : Int :=
  match pyzx with
  | some p => (p.qubits : Int)
  | none => qubitCount

/-- Embedding of `QrackSimulator.__init__`: returns the final native state
together with the new simulator handle, or the raised error.  A supplied
pyzx circuit overrides the qubit count before the clone/count conflict check,
and its gates are run after allocation. -/
def qrackConstruct (applyGate : PrimCall → Register → Register)
    (qubitCount cloneSid : Int) (cfg : QrackConfig)
    (pyzx : Option PyzxCircuit) (st : NativeState) :
    NativeState × Except PyError Nat :=
  let qc : Int := effQC pyzx qubitCount
  if qc > -1 ∧ cloneSid > -1 then
    (st, .error (.runtimeError cloneErrMsg))
  else
    let sidSt :=
      if cloneSid > -1 then initClone cloneSid.toNat st
      else initCountType (if qc < 0 then 0 else qc.toNat) cfg st
    match pyzx with
    | some p =>
      let res := runPyzxGatesSt applyGate sidSt.1 p.gates sidSt.2
      (res.1, res.2.map (fun _ => sidSt.1))
    | none => (sidSt.2, .ok sidSt.1)

/-- The Python-side simulator object: just the optional native handle
`self.sid`. -/
structure PySim where
  sid : Option Nat
  deriving DecidableEq, Repr

/-- Embedding of `QrackSimulator.__del__`: destroy the native simulator if
the handle is still set, then clear the handle.  The returned number counts
the native destroy invocations made by this call. -/
def pyDel (x : PySim × NativeState) : (PySim × NativeState) × Nat :=
  match x.1.sid with
  | some s => ((⟨none⟩, destroyNative s x.2), 1)
  | none => (x, 0)

/-- Run `__del__` repeatedly, accumulating the native destroy count. -/
def pyDelIter : Nat → PySim × NativeState → (PySim × NativeState) × Nat
  | 0, x => (x, 0)
  | n + 1, x =>
    ((pyDelIter n (pyDel x).1).1, (pyDel x).2 + (pyDelIter n (pyDel x).1).2)

/-- Embedding of `QrackSimulator.try_separate_tolerance`: the body reads the
unbound name `tol` (the parameter is named `t`), so evaluating the call's
arguments raises `NameError: tol` before the native `TrySeparateTol` is ever
invoked, for every input. -/
def try_separate_tolerance (qs : List Nat) (t : ℚ) : Except PyError Bool :=
  Except.error (.nameError "tol")

/-- One lookup-table entry serialized into `c` bytes, least significant byte
first: the inner loop `b[n] = u & 0xFF; u >>= 8` of `_to_ubyte`. -/
def entryBytes : Nat → Nat → List Nat
  | 0, _ => []
  | c + 1, u => u % 256 :: entryBytes c (u / 256)

/-- Embedding of `QrackSimulator._to_ubyte`: serialize the table `v` into a
zero-initialized byte buffer of `c * 2 ^ nv` entries, where
`c = floor((nv - 1) / 8) + 1` is computed with Python's floor division on
signed integers.  `none` models the `IndexError` raised when the serialized
entries overrun the buffer. -/
def toUbyte (nv : Nat) (v : List Nat) : Option (List Nat) :=
  let c : Nat := (((nv : Int) - 1).fdiv 8 + 1).toNat
  let size := c * 2 ^ nv
  let written := (v.map (entryBytes c)).flatten
  if written.length ≤ size then
    some (written ++ List.replicate (size - written.length) 0)
  else none

/-- The serialized table buffer passed to the native `LDA` by
`QrackSimulator.lda`: `_to_ubyte(len(qv), t)`. -/
def ldaBuffer (qi qv t : List Nat) : Option (List Nat) :=
  toUbyte qv.length t

/-- The serialized table buffer passed to the native `ADC` by
`QrackSimulator.adc`. -/
def adcBuffer (s : Nat) (qi qv t : List Nat) : Option (List Nat) :=
  toUbyte qv.length t

/-- The serialized table buffer passed to the native `SBC` by
`QrackSimulator.sbc`. -/
def sbcBuffer (s : Nat) (qi qv t : List Nat) : Option (List Nat) :=
  toUbyte qv.length t

/-- The serialized table buffer passed to the native `Hash` by
`QrackSimulator.hash`. -/
def hashBuffer (q t : List Nat) : Option (List Nat) :=
  toUbyte q.length t

/-- Pack the values that basis state `b` assigns to the qubits `qs` into an
integer, first listed qubit in the least significant bit. -/
def extractBits (qs : List Nat) (b : Nat) : Nat :=
  match qs with
  | [] => 0
  | q :: rest => (if b.testBit q then 1 else 0) + 2 * extractBits rest b

/-- Modelled from the spec: the probability that measuring the qubit subset
`qs` of the register's current state yields the packed outcome `m`. -/
def outcomeProb (reg : Register) (qs : List Nat) (m : Nat) : ℚ :=
  ∑ b ∈ Finset.range (2 ^ reg.numQubits),
    if extractBits qs b = m then normSq (reg.amps b) else 0

/-- Modelled from the spec: the probability that the given qubit measures 1,
a pure read of the current state. -/
def probQubitOne (reg : Register) (q : Nat) : ℚ :=
  ∑ b ∈ Finset.range (2 ^ reg.numQubits),
    if b.testBit q then normSq (reg.amps b) else 0

/-- Total squared norm of the register's amplitude vector. -/
def totalProb (reg : Register) : ℚ :=
  ∑ b ∈ Finset.range (2 ^ reg.numQubits), normSq (reg.amps b)

/-- Modelled from the spec: the per-Register randomness source, a simple
linear congruential generator producing 31-bit values. -/
def lcg (x : Nat) : Nat := (x * 1103515245 + 12345) % 2 ^ 31

/-- Iterate the randomness source. -/
def lcgIter : Nat → Nat → Nat
  | 0, x => x
  | n + 1, x => lcgIter n (lcg x)

/-- The uniform rational draw in `[0, 1)` used for shot `i` of a sampling
call starting from the register's seed. -/
def shotDraw (seed i : Nat) : ℚ := (lcgIter (i + 1) seed : ℚ) / 2 ^ 31

/-- Inverse-CDF search: starting from outcome `m` with accumulated
probability `acc`, return the first outcome whose cumulative probability
exceeds the draw `r` (falling back to the last outcome). -/
def cdfGo (p : Nat → ℚ) : Nat → Nat → ℚ → ℚ → Nat
  | 0, m, _, _ => m - 1
  | fuel + 1, m, acc, r =>
    if r < acc + p m then m else cdfGo p fuel (m + 1) (acc + p m) r

/-- Sample one outcome among `0, ..., count - 1` by inverse CDF. -/
def cdfSample (p : Nat → ℚ) (count : Nat) (r : ℚ) : Nat :=
  cdfGo p count 0 0 r

/-- Modelled from the spec: repeated-shot sampling.  Each shot is an
independent statistically simulated trial against the current state's
distribution (spec 4.4), so the persistent register is not mutated; the
draws are derived functionally from the register's randomness seed. -/
def measureShotsNative (reg : Register) (qs : List Nat) (s : Nat) : List Nat :=
  (List.range s).map (fun i =>
    cdfSample (outcomeProb reg qs) (2 ^ qs.length) (shotDraw reg.rng i))

/-- Embedding of `QrackSimulator.measure_shots`: allocate an `s`-entry result
buffer, let the native sampler fill it, and return its `s` entries as a
list.  An unknown handle is a precondition violation, arbitrarily modelled
as returning the untouched zero buffer. -/
def measure_shots (sid : Nat) (q : List Nat) (s : Nat) (st : NativeState) :
    List Nat × NativeState :=
  match st.lookup sid with
  | some reg => (measureShotsNative reg q s, st)
  | none => (List.replicate s 0, st)

/-- Embedding of `QrackSimulator.prob`: return the native probability read.
The native `Prob` is a pure read (spec 4.4), so the state comes back
unchanged; an unknown handle is a precondition violation, modelled as 0. -/
def prob (sid q : Nat) (st : NativeState) : ℚ × NativeState :=
  match st.lookup sid with
  | some reg => (probQubitOne reg q, st)
  | none => (0, st)

/-- Scatter the bits of `a` to the positions `qs`: bit `i` of `a` goes to
bit position `qs[i]` of the result. -/
def setBits (qs : List Nat) (a : Nat) : Nat :=
  match qs with
  | [] => 0
  | q :: rest => (if a.testBit 0 then 2 ^ q else 0) ||| setBits rest (a / 2)

/-- The qubits of an `n`-qubit register that are not in the subset `qs`, in
increasing order. -/
def restQubits (n : Nat) (qs : List Nat) : List Nat :=
  (List.range n).filter (fun i => !(qs.contains i))

/-- Rebuild a full basis index from a subset value `a` (over `qs`) and a
remainder value `r` (over the complementary qubits). -/
def combineBits (n : Nat) (qs : List Nat) (a r : Nat) : Nat :=
  setBits qs a ||| setBits (restQubits n qs) r

/-- The subset `qs` is exactly unentangled from the remainder: the amplitude
vector factors across the subset/remainder split of the basis. -/
def Separable (reg : Register) (qs : List Nat) : Prop :=
  ∃ A B : Nat → Cq, ∀ b < 2 ^ reg.numQubits,
    reg.amps b =
      cmul (A (extractBits qs b))
        (B (extractBits (restQubits reg.numQubits qs) b))

/-- Modelled from the spec: the native `Decompose` splits off the qubits
`qs` of a register into a new independent register, assuming the subset is
exactly unentangled from the remainder.  The two factors are computed by
pivoting on the first nonzero amplitude; on an entangled subset this
silently yields a mathematically wrong result, as the spec notes for the
simplest designs.  An unknown handle is a precondition violation, modelled
arbitrarily. -/
def decomposeNative (sid : Nat) (qs : List Nat) (st : NativeState) :
    Nat × NativeState :=
  match st.lookup sid with
  | none => (0, st)
  | some reg =>
    let n := reg.numQubits
    let b0 :=
      (((List.range (2 ^ n)).find? (fun b => decide (reg.amps b ≠ Cq.zero))).getD 0)
    let a0 := extractBits qs b0
    let r0 := extractBits (restQubits n qs) b0
    let piv := reg.amps b0
    let newA : Nat → Cq := fun a => reg.amps (combineBits n qs a r0)
    let newB : Nat → Cq := fun r => cdiv (reg.amps (combineBits n qs a0 r)) piv
    let allocRes := st.alloc ⟨qs.length, newA, reg.rng, reg.cfg⟩
    (allocRes.1, allocRes.2.set sid ⟨n - qs.length, newB, reg.rng, reg.cfg⟩)

/-- Embedding of `QrackSimulator.decompose`: construct a throwaway
`QrackSimulator()` (a fresh default register), destroy its native handle,
and replace that handle by the native `Decompose` result.  `self.sid` is
never reassigned by the method. -/
def decompose (sid : Nat) (qs : List Nat) (st : NativeState) :
    Nat × NativeState :=
  match qrackConstruct (fun _ r => r) (-1) (-1) defaultConfig none st with
  | (st1, .ok tempSid) => decomposeNative sid qs (destroyNative tempSid st1)
  | (st1, .error _) => (0, st1)

/-- An empty native state, used to instantiate theorems at concrete inputs. -/
def st0 : NativeState := ⟨0, []⟩

/-- A gate record with a given name and zeroed numeric fields, used to
instantiate theorems at concrete inputs. -/
def gateEx (nm : String) : PyzxGate := ⟨nm, 0, 0, 0, 0, 0, 0, 0, []⟩

/-- A trivial gate engine (identity action), a legitimate instantiation of
the `applyGate` parameter. -/
def idGate : PrimCall → Register → Register := fun _ r => r

/-- A concrete one-qubit register in the state with all amplitude on the
all-zero basis state, used to instantiate theorems at concrete inputs. -/
def regEx : Register := freshRegister 1 defaultConfig

/-- A concrete native state holding `regEx` at handle 0, used to instantiate
theorems at concrete inputs. -/
def stEx : NativeState := ⟨1, [(0, regEx)]⟩

/-- A concrete two-qubit register in the all-zero basis state, used to
instantiate theorems at concrete inputs. -/
def reg2Ex : Register := freshRegister 2 defaultConfig

/-- A concrete native state holding `reg2Ex` at handle 0, used to
instantiate theorems at concrete inputs. -/
def st2Ex : NativeState := ⟨1, [(0, reg2Ex)]⟩

theorem normSq_nonneg (z : Cq) : 0 ≤ normSq z :=
  add_nonneg (mul_self_nonneg _) (mul_self_nonneg _)

theorem normSq_cmul (z w : Cq) : normSq (cmul z w) = normSq z * normSq w := by
  simp only [normSq, cmul]
  ring

theorem normSq_eq_zero_iff (z : Cq) : normSq z = 0 ↔ z = Cq.zero := by
  constructor
  · intro h
    simp only [normSq] at h
    have h1 : z.re * z.re = 0 ∧ z.im * z.im = 0 := by
      constructor <;> nlinarith [mul_self_nonneg z.re, mul_self_nonneg z.im]
    have hre : z.re = 0 := by nlinarith [h1.1]
    have him : z.im = 0 := by nlinarith [h1.2]
    cases z
    simp only [Cq.zero]
    simp_all
  · intro h
    subst h
    simp [normSq, Cq.zero]

theorem normSq_ne_zero_of_ne {z : Cq} (h : z ≠ Cq.zero) : normSq z ≠ 0 :=
  fun h0 => h ((normSq_eq_zero_iff z).mp h0)

theorem cmul_comm (z w : Cq) : cmul z w = cmul w z := by
  simp only [cmul]
  ext <;> ring

theorem cmul_assoc (x y z : Cq) : cmul (cmul x y) z = cmul x (cmul y z) := by
  simp only [cmul]
  ext <;> ring

/-- Common-factor cancellation inside a complex quotient. -/
theorem cdiv_cmul_cmul_left (v y w : Cq) (hv : normSq v ≠ 0) :
    cdiv (cmul v y) (cmul v w) = cdiv y w := by
  have hnum1 : (cmul v y).re * (cmul v w).re + (cmul v y).im * (cmul v w).im =
      normSq v * (y.re * w.re + y.im * w.im) := by
    simp only [cmul, normSq]
    ring
  have hnum2 : (cmul v y).im * (cmul v w).re - (cmul v y).re * (cmul v w).im =
      normSq v * (y.im * w.re - y.re * w.im) := by
    simp only [cmul, normSq]
    ring
  unfold cdiv
  rw [normSq_cmul, hnum1, hnum2, mul_div_mul_left _ _ hv, mul_div_mul_left _ _ hv]

/-- Multiplying back by the divisor cancels a complex division. -/
theorem cmul_cdiv_cancel (y w : Cq) (hw : normSq w ≠ 0) :
    cmul w (cdiv y w) = y := by
  have hd : w.re * w.re + w.im * w.im ≠ 0 := by
    simpa [normSq] using hw
  unfold cdiv cmul normSq
  ext
  · field_simp
    ring
  · field_simp
    ring

/-- The reconstruction identity behind pivot-based Schmidt factoring:
multiplying one factor sample by the quotient of two others recovers the
original amplitude. -/
theorem cmul_factor_identity (x y w : Cq) (hw : normSq w ≠ 0) :
    cmul (cmul x w) (cdiv y w) = cmul x y := by
  rw [cmul_assoc, cmul_cdiv_cancel y w hw]

theorem find?_filter_ne (l : List (Nat × Register)) (sid s' : Nat)
    (h : s' ≠ sid) :
    (l.filter (fun p => !(p.1 == sid))).find? (fun p => p.1 == s') =
      l.find? (fun p => p.1 == s') := by
  induction l with
  | nil => rfl
  | cons p rest ih =>
    by_cases hp : p.1 = sid
    · have h1 : ¬(!(p.1 == sid)) = true := by simp [hp]
      have h2 : ¬(p.1 == s') = true := by
        simp only [beq_iff_eq]
        omega
      rw [@List.filter_cons_of_neg _ (fun q => !(q.1 == sid)) p rest h1,
        @List.find?_cons_of_neg _ (fun q => q.1 == s') p rest h2, ih]
    · have h1 : (!(p.1 == sid)) = true := by simp [hp]
      rw [@List.filter_cons_of_pos _ (fun q => !(q.1 == sid)) p rest h1]
      cases hps : (p.1 == s') with
      | true =>
        rw [@List.find?_cons_of_pos _ (fun q => q.1 == s') p
            (List.filter (fun q => !(q.1 == sid)) rest) hps,
          @List.find?_cons_of_pos _ (fun q => q.1 == s') p rest hps]
      | false =>
        have hps' : ¬(p.1 == s') = true := by simp [hps]
        rw [@List.find?_cons_of_neg _ (fun q => q.1 == s') p
            (List.filter (fun q => !(q.1 == sid)) rest) hps',
          @List.find?_cons_of_neg _ (fun q => q.1 == s') p rest hps', ih]

theorem lookup_set_self (st : NativeState) (sid : Nat) (r : Register) :
    (st.set sid r).lookup sid = some r := by
  simp [NativeState.set, NativeState.lookup, List.find?_cons]

theorem lookup_set_ne (st : NativeState) (sid s' : Nat) (r : Register)
    (h : s' ≠ sid) :
    (st.set sid r).lookup s' = st.lookup s' := by
  have h1 : (sid == s') = false := by
    simp only [beq_eq_false_iff_ne, ne_eq]
    omega
  simp only [NativeState.set, NativeState.lookup, List.find?_cons, h1,
    find?_filter_ne _ _ _ h]

theorem lookup_remove_ne (st : NativeState) (sid s' : Nat) (h : s' ≠ sid) :
    (st.remove sid).lookup s' = st.lookup s' := by
  simp only [NativeState.remove, NativeState.lookup, find?_filter_ne _ _ _ h]

theorem alloc_fst (st : NativeState) (r : Register) :
    (st.alloc r).1 = st.nextSid := rfl

theorem lookup_alloc_self (st : NativeState) (r : Register) :
    ((st.alloc r).2).lookup st.nextSid = some r := by
  simp [NativeState.alloc, NativeState.lookup, List.find?_cons]

theorem lookup_alloc_ne (st : NativeState) (r : Register) (s' : Nat)
    (h : s' ≠ st.nextSid) :
    ((st.alloc r).2).lookup s' = st.lookup s' := by
  have h1 : (st.nextSid == s') = false := by
    simp only [beq_eq_false_iff_ne, ne_eq]
    omega
  simp [NativeState.alloc, NativeState.lookup, List.find?_cons, h1]

theorem lookup_lt_of_wf {st : NativeState} {sid : Nat} {r : Register}
    (hwf : StWF st) (h : st.lookup sid = some r) : sid < st.nextSid := by
  unfold NativeState.lookup at h
  cases hf : st.regs.find? (fun p => p.1 == sid) with
  | none => simp [hf] at h
  | some p =>
    have hmem : p ∈ st.regs := List.mem_of_find?_eq_some hf
    have hpred := List.find?_some hf
    have : p.1 = sid := beq_iff_eq.mp hpred
    have := hwf p hmem
    omega

theorem initCountType_fst (n : Nat) (cfg : QrackConfig) (st : NativeState) :
    (initCountType n cfg st).1 = st.nextSid := rfl

theorem runPyzxGate_not_matched (g : PyzxGate)
    (h : g.name ∉ namesBeforeFSim) :
    runPyzxGate g = Except.error (PyError.nameError "game") := by
  have hx : ∀ nm, nm ∈ namesBeforeFSim → g.name ≠ nm :=
    fun nm hm he => h (he ▸ hm)
  unfold runPyzxGate
  rw [if_neg (hx "XPhase" (by simp [namesBeforeFSim])),
    if_neg (hx "ZPhase" (by simp [namesBeforeFSim])),
    if_neg (hx "Z" (by simp [namesBeforeFSim])),
    if_neg (hx "S" (by simp [namesBeforeFSim])),
    if_neg (hx "T" (by simp [namesBeforeFSim])),
    if_neg (hx "NOT" (by simp [namesBeforeFSim])),
    if_neg (hx "HAD" (by simp [namesBeforeFSim])),
    if_neg (hx "CNOT" (by simp [namesBeforeFSim])),
    if_neg (hx "CZ" (by simp [namesBeforeFSim])),
    if_neg (hx "CX" (by simp [namesBeforeFSim])),
    if_neg (hx "SWAP" (by simp [namesBeforeFSim])),
    if_neg (hx "CRZ" (by simp [namesBeforeFSim])),
    if_neg (hx "CHAD" (by simp [namesBeforeFSim])),
    if_neg (hx "ParityPhase" (by simp [namesBeforeFSim]))]

theorem runPyzxGate_error_eq {g : PyzxGate} {e : PyError}
    (h : runPyzxGate g = Except.error e) : e = PyError.nameError "game" := by
  by_cases hmem : g.name ∈ namesBeforeFSim
  · simp only [namesBeforeFSim, List.mem_cons, List.not_mem_nil, or_false]
      at hmem
    rcases hmem with hn|hn|hn|hn|hn|hn|hn|hn|hn|hn|hn|hn|hn|hn <;>
      simp [runPyzxGate, hn] at h
  · rw [runPyzxGate_not_matched g hmem] at h
    injection h with h2
    exact h2.symm

/-- C3: the code at the failing input.  `try_separate_tolerance` raises
`NameError: tol` (the body references the undefined name `tol` instead of
the parameter `t`) instead of attempting the decomposition and reporting
whether it succeeded. -/
theorem c3_try_separate_tolerance_raises :
    try_separate_tolerance [0] (1 / 2) =
      Except.error (PyError.nameError "tol") := rfl

theorem pyDelIter_noop (n : Nat) (self : PySim) (st : NativeState)
    (h : self.sid = none) : pyDelIter n (self, st) = ((self, st), 0) := by
  induction n with
  | zero => rfl
  | succ n ih =>
    have hd : pyDel (self, st) = ((self, st), 0) := by
      simp [pyDel, h]
    simp [pyDelIter, hd, ih]

theorem pyDelIter_once (n : Nat) (st : NativeState) (s' : Nat) :
    pyDelIter (n + 1) (PySim.mk (some s'), st) =
      ((PySim.mk none, destroyNative s' st), 1) := by
  have hd : pyDel (PySim.mk (some s'), st) =
      ((PySim.mk none, destroyNative s' st), 1) := by
    simp [pyDel]
  simp [pyDelIter, hd, pyDelIter_noop n _ _ rfl]

/-- C8: destruction is idempotent at the binding level.  Over any number of
`__del__` runs, the native destroy routine is invoked at most once; after the
first run the handle is `None`; and when the handle is already `None` the
destructor is a no-op that performs no native destroy. -/
theorem c8_del_idempotent (n : Nat) (self : PySim) (st : NativeState) :
    (pyDelIter n (self, st)).2 ≤ 1 ∧
    (pyDelIter (n + 1) (self, st)).1.1.sid = none ∧
    (self.sid = none → pyDelIter n (self, st) = ((self, st), 0)) := by
  refine ⟨?_, ?_, fun h => pyDelIter_noop n self st h⟩
  · cases hs : self.sid with
    | none =>
      cases self
      simp_all [pyDelIter_noop n _ st rfl]
    | some s' =>
      cases self
      cases hs
      cases n with
      | zero => simp [pyDelIter]
      | succ m => simp [pyDelIter_once m st s']
  · cases hs : self.sid with
    | none =>
      cases self
      cases hs
      simp [pyDelIter_noop (n + 1) _ st rfl]
    | some s' =>
      cases self
      cases hs
      simp [pyDelIter_once n st s']

/-- C8 witness: after a first destruction, a second `__del__` run performs
no further native destroy. -/
theorem c8_del_idempotent_witness :
    pyDelIter 2 (PySim.mk none, st0) = ((PySim.mk none, st0), 0) :=
  (c8_del_idempotent 2 (PySim.mk none) st0).2.2 rfl

/-- C4: any gate record whose name matches none of the names tested before
the `FSim` case reaches the broken comparison `game.name == 'FSim'` and
raises `NameError: game`; no primitive call list is ever produced, so
foreign `FSim` import never completes. -/
theorem c4_fsim_branch_raises (g : PyzxGate)
    (h : g.name ∉ namesBeforeFSim) :
    runPyzxGate g = Except.error (PyError.nameError "game") ∧
    ∀ prims : List PrimCall, runPyzxGate g ≠ Except.ok prims := by
  refine ⟨runPyzxGate_not_matched g h, ?_⟩
  intro prims hcontra
  rw [runPyzxGate_not_matched g h] at hcontra
  cases hcontra

/-- C4 witness: a record actually named `FSim` raises `NameError: game`. -/
theorem c4_fsim_branch_raises_witness :
    runPyzxGate (gateEx "FSim") = Except.error (PyError.nameError "game") ∧
    ∀ prims : List PrimCall, runPyzxGate (gateEx "FSim") ≠ Except.ok prims :=
  c4_fsim_branch_raises (gateEx "FSim") (by simp [gateEx, namesBeforeFSim])

/-- C2: a gate sequence containing a record whose name is not among the
recognized foreign gate names makes `run_pyzx_gates` fail with a fatal
error (a `NameError` at translation time); it is never silently skipped. -/
theorem c2_unrecognized_gate_fatal
    (applyGate : PrimCall → Register → Register) (sid : Nat)
    (gs : List PyzxGate) (st : NativeState) (g : PyzxGate)
    (hmem : g ∈ gs) (hname : g.name ∉ recognizedPyzxNames) :
    ∃ st', runPyzxGatesSt applyGate sid gs st =
      (st', Except.error (PyError.nameError "game")) := by
  induction gs generalizing st with
  | nil => cases hmem
  | cons g0 rest ih =>
    cases hmem with
    | head =>
      have hbefore : g.name ∉ namesBeforeFSim := by
        intro hin
        exact hname (by
          simp [namesBeforeFSim] at hin
          simp [recognizedPyzxNames]
          tauto)
      refine ⟨st, ?_⟩
      simp [runPyzxGatesSt, runPyzxGate_not_matched g hbefore]
    | tail _ hmem' =>
      cases hrun : runPyzxGate g0 with
      | error e =>
        refine ⟨st, ?_⟩
        rw [runPyzxGate_error_eq hrun] at hrun
        simp [runPyzxGatesSt, hrun]
      | ok prims =>
        have := ih (prims.foldl (applyPrim applyGate sid) st) hmem'
        simpa [runPyzxGatesSt, hrun] using this

/-- C2 witness: a single unrecognized record makes the whole translation
fail with `NameError: game`. -/
theorem c2_unrecognized_gate_fatal_witness :
    ∃ st', runPyzxGatesSt idGate 0 [gateEx "Oops"] st0 =
      (st', Except.error (PyError.nameError "game")) :=
  c2_unrecognized_gate_fatal idGate 0 [gateEx "Oops"] st0 (gateEx "Oops")
    (List.mem_singleton.mpr rfl) (by simp [gateEx, recognizedPyzxNames])

/-- C9: a negative qubit count with no clone source and no circuit is not an
error: the count is silently replaced by 0 and a fresh zero-qubit register
carrying the given configuration options is created. -/
theorem c9_negative_count (applyGate : PrimCall → Register → Register)
    (qubitCount : Int) (cfg : QrackConfig) (st : NativeState)
    (h : qubitCount < 0) :
    qrackConstruct applyGate qubitCount (-1) cfg none st =
      ((initCountType 0 cfg st).2, Except.ok (initCountType 0 cfg st).1) ∧
    ((initCountType 0 cfg st).2).lookup (initCountType 0 cfg st).1 =
      some (freshRegister 0 cfg) := by
  constructor
  · have h1 : ¬(effQC none qubitCount > -1 ∧ (-1 : Int) > -1) := by
      intro hc
      exact absurd hc.2 (by omega)
    have h2 : ¬((-1 : Int) > -1) := by omega
    have h3 : effQC none qubitCount < 0 := h
    simp only [qrackConstruct, if_neg h1, if_neg h2, if_pos h3]
  · exact lookup_alloc_self st (freshRegister 0 cfg)

/-- C9 witness: constructing with count -7 yields a zero-qubit register. -/
theorem c9_negative_count_witness :
    qrackConstruct idGate (-7) (-1) defaultConfig none st0 =
      ((initCountType 0 defaultConfig st0).2,
        Except.ok (initCountType 0 defaultConfig st0).1) ∧
    ((initCountType 0 defaultConfig st0).2).lookup
        (initCountType 0 defaultConfig st0).1 =
      some (freshRegister 0 defaultConfig) :=
  c9_negative_count idGate (-7) defaultConfig st0 (by omega)

theorem foldl_applyPrim_preserves
    (applyGate : PrimCall → Register → Register)
    (hag : ∀ p r, (applyGate p r).numQubits = r.numQubits ∧
      (applyGate p r).cfg = r.cfg)
    (sid : Nat) (prims : List PrimCall) :
    ∀ (st : NativeState) (reg : Register), st.lookup sid = some reg →
      ∃ reg', (prims.foldl (applyPrim applyGate sid) st).lookup sid =
          some reg' ∧
        reg'.numQubits = reg.numQubits ∧ reg'.cfg = reg.cfg := by
  induction prims with
  | nil => exact fun st reg h => ⟨reg, h, rfl, rfl⟩
  | cons p rest ih =>
    intro st reg h
    have hstep : (applyPrim applyGate sid st p).lookup sid =
        some (applyGate p reg) := by
      simp [applyPrim, h, lookup_set_self]
    obtain ⟨reg', h1, h2, h3⟩ :=
      ih (applyPrim applyGate sid st p) (applyGate p reg) hstep
    exact ⟨reg', h1, h2.trans (hag p reg).1, h3.trans (hag p reg).2⟩

theorem runPyzxGatesSt_preserves
    (applyGate : PrimCall → Register → Register)
    (hag : ∀ p r, (applyGate p r).numQubits = r.numQubits ∧
      (applyGate p r).cfg = r.cfg)
    (sid : Nat) (gs : List PyzxGate) :
    ∀ (st : NativeState) (reg : Register), st.lookup sid = some reg →
      ∃ reg', ((runPyzxGatesSt applyGate sid gs st).1).lookup sid =
          some reg' ∧
        reg'.numQubits = reg.numQubits ∧ reg'.cfg = reg.cfg := by
  induction gs with
  | nil => exact fun st reg h => ⟨reg, h, rfl, rfl⟩
  | cons g rest ih =>
    intro st reg h
    cases hrun : runPyzxGate g with
    | error e =>
      refine ⟨reg, ?_, rfl, rfl⟩
      simp [runPyzxGatesSt, hrun, h]
    | ok prims =>
      obtain ⟨regMid, hMid1, hMid2, hMid3⟩ :=
        foldl_applyPrim_preserves applyGate hag sid prims st reg h
      obtain ⟨reg', h1, h2, h3⟩ :=
        ih (prims.foldl (applyPrim applyGate sid) st) regMid hMid1
      refine ⟨reg', ?_, h2.trans hMid2, h3.trans hMid3⟩
      simpa [runPyzxGatesSt, hrun] using h1

theorem runPyzxGatesSt_error_eq
    (applyGate : PrimCall → Register → Register) (sid : Nat)
    (gs : List PyzxGate) :
    ∀ (st : NativeState) {e : PyError},
      (runPyzxGatesSt applyGate sid gs st).2 = Except.error e →
      e = PyError.nameError "game" := by
  induction gs with
  | nil => intro st e h; simp [runPyzxGatesSt] at h
  | cons g rest ih =>
    intro st e h
    cases hrun : runPyzxGate g with
    | error e' =>
      simp only [runPyzxGatesSt, hrun] at h
      injection h with h2
      exact h2 ▸ runPyzxGate_error_eq hrun
    | ok prims =>
      simp only [runPyzxGatesSt, hrun] at h
      exact ih _ h

/-- C1: supplying both an (effective) qubit count above -1 and a clone
source above -1 raises the `RuntimeError` with the native state untouched
(no simulator is created); otherwise no such error is raised and a register
is created at the fresh handle — a clone of the source register's full state
when a clone source is given, else a fresh register with the requested qubit
count and configuration options (exactly the fresh register when no circuit
is supplied; gate application preserves its qubit count and options). -/
theorem c1_constructor (applyGate : PrimCall → Register → Register)
    (hag : ∀ p r, (applyGate p r).numQubits = r.numQubits ∧
      (applyGate p r).cfg = r.cfg)
    (qubitCount cloneSid : Int) (cfg : QrackConfig)
    (pyzx : Option PyzxCircuit) (st : NativeState) :
    (effQC pyzx qubitCount > -1 ∧ cloneSid > -1 →
      qrackConstruct applyGate qubitCount cloneSid cfg pyzx st =
        (st, Except.error (PyError.runtimeError cloneErrMsg))) ∧
    (¬(effQC pyzx qubitCount > -1 ∧ cloneSid > -1) →
      (qrackConstruct applyGate qubitCount cloneSid cfg pyzx st).2 ≠
        Except.error (PyError.runtimeError cloneErrMsg) ∧
      ∃ reg,
        ((qrackConstruct applyGate qubitCount cloneSid cfg pyzx st).1).lookup
            st.nextSid = some reg ∧
        (if cloneSid > -1 then
          ∀ src, st.lookup cloneSid.toNat = some src → reg = src
         else
          reg.numQubits =
              (if effQC pyzx qubitCount < 0 then 0
               else (effQC pyzx qubitCount).toNat) ∧
            reg.cfg = cfg ∧
            (pyzx = none →
              reg = freshRegister
                (if effQC pyzx qubitCount < 0 then 0
                 else (effQC pyzx qubitCount).toNat) cfg))) := by
  constructor
  · intro hboth
    simp only [qrackConstruct, if_pos hboth]
  · intro hnot
    by_cases hcs : cloneSid > -1
    · -- clone branch; the pyzx circuit must be absent, else the effective
      -- count would conflict with the clone source
      cases pyzx with
      | some p =>
        exact absurd ⟨by simp [effQC]; omega, hcs⟩ hnot
      | none =>
        have hcomp : qrackConstruct applyGate qubitCount cloneSid cfg none st =
            ((initClone cloneSid.toNat st).2,
              Except.ok (initClone cloneSid.toNat st).1) := by
          simp only [qrackConstruct, if_neg hnot, if_pos hcs]
        rw [hcomp]
        simp only [if_pos hcs]
        cases hsrc : st.lookup cloneSid.toNat with
        | some src =>
          refine ⟨by simp, src, ?_, ?_⟩
          · simp only [initClone, hsrc]
            exact lookup_alloc_self st src
          · intro src' hsrc'
            exact Option.some.inj hsrc'
        | none =>
          refine ⟨by simp, freshRegister 0 defaultConfig, ?_, ?_⟩
          · simp only [initClone, hsrc]
            exact lookup_alloc_self st (freshRegister 0 defaultConfig)
          · intro src' hsrc'
            exact Option.noConfusion hsrc'
    · cases pyzx with
      | none =>
        have hcomp : qrackConstruct applyGate qubitCount cloneSid cfg none st =
            ((initCountType
              (if effQC none qubitCount < 0 then 0
               else (effQC none qubitCount).toNat) cfg st).2,
              Except.ok (initCountType
                (if effQC none qubitCount < 0 then 0
                 else (effQC none qubitCount).toNat) cfg st).1) := by
          simp only [qrackConstruct, if_neg hnot, if_neg hcs]
        rw [hcomp]
        simp only [if_neg hcs]
        exact ⟨by simp, freshRegister
          (if effQC none qubitCount < 0 then 0
           else (effQC none qubitCount).toNat) cfg,
          lookup_alloc_self st _, rfl, rfl, fun _ => rfl⟩
      | some p =>
        have hinit : ((initCountType
            (if effQC (some p) qubitCount < 0 then 0
             else (effQC (some p) qubitCount).toNat) cfg st).2).lookup
              st.nextSid =
            some (freshRegister
              (if effQC (some p) qubitCount < 0 then 0
               else (effQC (some p) qubitCount).toNat) cfg) :=
          lookup_alloc_self st _
        obtain ⟨reg, hreg, hnq, hcfg⟩ :=
          runPyzxGatesSt_preserves applyGate hag st.nextSid p.gates _ _ hinit
        have hcomp : qrackConstruct applyGate qubitCount cloneSid cfg
            (some p) st =
            ((runPyzxGatesSt applyGate st.nextSid p.gates
              (initCountType
                (if effQC (some p) qubitCount < 0 then 0
                 else (effQC (some p) qubitCount).toNat) cfg st).2).1,
             Except.map (fun _ => st.nextSid)
               (runPyzxGatesSt applyGate st.nextSid p.gates
                 (initCountType
                   (if effQC (some p) qubitCount < 0 then 0
                    else (effQC (some p) qubitCount).toNat) cfg st).2).2) := by
          simp only [qrackConstruct, if_neg hnot, if_neg hcs, initCountType_fst]
        rw [hcomp]
        simp only [if_neg hcs]
        constructor
        · cases hres : (runPyzxGatesSt applyGate st.nextSid p.gates
              (initCountType
                (if effQC (some p) qubitCount < 0 then 0
                 else (effQC (some p) qubitCount).toNat) cfg st).2).2 with
          | ok u =>
            simp [Except.map]
          | error e =>
            have he := runPyzxGatesSt_error_eq applyGate st.nextSid p.gates
              _ hres
            subst he
            simp [Except.map]
        · refine ⟨reg, hreg, hnq.trans rfl, hcfg.trans rfl,
            fun habs => by cases habs⟩

/-- C1 witness: supplying qubit count 5 and clone source 3 together raises
the `RuntimeError` and leaves the native state untouched. -/
theorem c1_constructor_witness :
    qrackConstruct idGate 5 3 defaultConfig none st0 =
      (st0, Except.error (PyError.runtimeError cloneErrMsg)) :=
  (c1_constructor idGate (fun _ _ => ⟨rfl, rfl⟩) 5 3 defaultConfig none
    st0).1 ⟨by norm_num [effQC], by norm_num⟩

theorem extractBits_single (q b : Nat) :
    extractBits [q] b = if b.testBit q then 1 else 0 := by
  simp [extractBits]

theorem probQubitOne_eq_outcomeProb (reg : Register) (q : Nat) :
    probQubitOne reg q = outcomeProb reg [q] 1 := by
  unfold probQubitOne outcomeProb
  refine Finset.sum_congr rfl (fun b _ => ?_)
  rw [extractBits_single]
  by_cases hb : b.testBit q
  · simp [hb]
  · simp [hb]

/-- C7: `prob` is a pure read.  Its value is the probability that the qubit
measures 1 (the one-qubit marginal of the state's outcome distribution), the
native state is returned unchanged, and any subsequent sampling behaves
exactly as if `prob` had not been called. -/
theorem c7_prob_pure_read (sid q : Nat) (st : NativeState) (reg : Register)
    (hlook : st.lookup sid = some reg) :
    (prob sid q st).1 = probQubitOne reg q ∧
    probQubitOne reg q = outcomeProb reg [q] 1 ∧
    (prob sid q st).2 = st ∧
    (∀ (qs : List Nat) (s : Nat),
      measure_shots sid qs s (prob sid q st).2 = measure_shots sid qs s st) := by
  refine ⟨?_, probQubitOne_eq_outcomeProb reg q, ?_, ?_⟩ <;>
    simp [prob, hlook]

/-- C7 witness: reading the probability of qubit 0 on a concrete register. -/
theorem c7_prob_pure_read_witness :
    (prob 0 0 stEx).1 = probQubitOne regEx 0 ∧
    probQubitOne regEx 0 = outcomeProb regEx [0] 1 ∧
    (prob 0 0 stEx).2 = stEx ∧
    (∀ (qs : List Nat) (s : Nat),
      measure_shots 0 qs s (prob 0 0 stEx).2 = measure_shots 0 qs s stEx) :=
  c7_prob_pure_read 0 0 stEx regEx rfl

theorem extractBits_lt (qs : List Nat) (b : Nat) :
    extractBits qs b < 2 ^ qs.length := by
  induction qs with
  | nil => simp [extractBits]
  | cons q rest ih =>
    simp only [extractBits, List.length_cons, pow_succ]
    by_cases hb : b.testBit q
    · rw [if_pos hb]
      omega
    · rw [if_neg hb]
      omega

theorem sum_outcomeProb (reg : Register) (qs : List Nat) :
    ∑ m ∈ Finset.range (2 ^ qs.length), outcomeProb reg qs m =
      totalProb reg := by
  unfold outcomeProb totalProb
  rw [Finset.sum_comm]
  refine Finset.sum_congr rfl (fun b _ => ?_)
  rw [Finset.sum_ite_eq (Finset.range (2 ^ qs.length)) (extractBits qs b)
    (fun _ => normSq (reg.amps b)),
    if_pos (Finset.mem_range.mpr (extractBits_lt qs b))]

theorem cdfGo_pos (p : Nat → ℚ) :
    ∀ (fuel m : Nat) (acc r : ℚ), acc ≤ r →
      r < acc + ∑ i ∈ Finset.range fuel, p (m + i) →
      0 < p (cdfGo p fuel m acc r) := by
  intro fuel
  induction fuel with
  | zero =>
    intro m acc r hle hlt
    simp only [Finset.range_zero, Finset.sum_empty, add_zero] at hlt
    linarith
  | succ fuel ih =>
    intro m acc r hle hlt
    by_cases hstop : r < acc + p m
    · simp only [cdfGo, if_pos hstop]
      linarith
    · simp only [cdfGo, if_neg hstop]
      refine ih (m + 1) (acc + p m) r (by linarith) ?_
      have hsum : ∑ i ∈ Finset.range (fuel + 1), p (m + i) =
          p m + ∑ i ∈ Finset.range fuel, p (m + 1 + i) := by
        rw [Finset.sum_range_succ' (fun i => p (m + i)) fuel, add_comm]
        congr 1
        exact Finset.sum_congr rfl (fun i _ => by
          rw [show m + (i + 1) = m + 1 + i from by omega])
      rw [hsum] at hlt
      linarith

theorem cdfSample_pos (p : Nat → ℚ) (count : Nat) (r : ℚ) (h0 : 0 ≤ r)
    (hlt : r < ∑ m ∈ Finset.range count, p m) :
    0 < p (cdfSample p count r) := by
  unfold cdfSample
  refine cdfGo_pos p count 0 0 r h0 ?_
  simpa using hlt

theorem lcg_lt (x : Nat) : lcg x < 2 ^ 31 :=
  Nat.mod_lt _ (by norm_num)

theorem lcgIter_lcg_lt (n : Nat) : ∀ x, lcgIter n (lcg x) < 2 ^ 31 := by
  induction n with
  | zero => exact fun x => lcg_lt x
  | succ n ih =>
    intro x
    simp only [lcgIter]
    exact ih (lcg x)

theorem shotDraw_nonneg (seed i : Nat) : 0 ≤ shotDraw seed i := by
  unfold shotDraw
  positivity

theorem shotDraw_lt_one (seed i : Nat) : shotDraw seed i < 1 := by
  unfold shotDraw
  rw [div_lt_one (by positivity)]
  have h : lcgIter (i + 1) seed < 2 ^ 31 := lcgIter_lcg_lt i seed
  exact_mod_cast h

theorem measureShotsNative_support (reg : Register) (qs : List Nat)
    (s : Nat) (hnorm : totalProb reg = 1) :
    ∀ o ∈ measureShotsNative reg qs s, 0 < outcomeProb reg qs o := by
  intro o ho
  simp only [measureShotsNative, List.mem_map, List.mem_range] at ho
  obtain ⟨i, _, rfl⟩ := ho
  refine cdfSample_pos _ _ _ (shotDraw_nonneg _ _) ?_
  rw [sum_outcomeProb reg qs, hnorm]
  exact shotDraw_lt_one _ _

/-- C5: `measure_shots` returns exactly `s` outcomes, each drawn from the
current state's outcome distribution over the requested qubits (every
returned outcome has positive probability there), and the native state is
identical after the call: sampling does not mutate the persistent state. -/
theorem c5_measure_shots (sid : Nat) (q : List Nat) (s : Nat)
    (st : NativeState) (reg : Register) (hlook : st.lookup sid = some reg)
    (hnorm : totalProb reg = 1) :
    (measure_shots sid q s st).1.length = s ∧
    (measure_shots sid q s st).2 = st ∧
    ∀ o ∈ (measure_shots sid q s st).1, 0 < outcomeProb reg q o := by
  refine ⟨?_, ?_, ?_⟩
  · simp [measure_shots, hlook, measureShotsNative]
  · simp [measure_shots, hlook]
  · intro o ho
    refine measureShotsNative_support reg q s hnorm o ?_
    simpa [measure_shots, hlook] using ho

/-- C5 witness: three shots on a concrete normalized one-qubit register. -/
theorem c5_measure_shots_witness :
    (measure_shots 0 [0] 3 stEx).1.length = 3 ∧
    (measure_shots 0 [0] 3 stEx).2 = stEx ∧
    ∀ o ∈ (measure_shots 0 [0] 3 stEx).1, 0 < outcomeProb regEx [0] o :=
  c5_measure_shots 0 [0] 3 stEx regEx rfl (by
    norm_num [totalProb, regEx, freshRegister, normSq, Cq.one, Cq.zero,
      Finset.sum_range_succ])

theorem entryBytes_length (c : Nat) : ∀ u, (entryBytes c u).length = c := by
  induction c with
  | zero => intro u; rfl
  | succ c ih =>
    intro u
    simp only [entryBytes, List.length_cons, ih]

theorem entryBytes_getElem (c : Nat) :
    ∀ (u i : Nat), i < c →
      (entryBytes c u)[i]? = some (u / 256 ^ i % 256) := by
  induction c with
  | zero => intro u i hi; omega
  | succ c ih =>
    intro u i hi
    cases i with
    | zero => simp [entryBytes]
    | succ i' =>
      have h1 : (entryBytes (c + 1) u)[i' + 1]? =
          (entryBytes c (u / 256))[i']? := by
        simp [entryBytes]
      rw [h1, ih (u / 256) i' (by omega), Nat.div_div_eq_div_mul]
      rw [show 256 * 256 ^ i' = 256 ^ (i' + 1) from by rw [pow_succ]; ring]

theorem flatten_map_length (c : Nat) (v : List Nat) :
    ((v.map (entryBytes c)).flatten).length = v.length * c := by
  induction v with
  | nil => simp
  | cons u rest ih =>
    simp only [List.map_cons, List.flatten_cons, List.length_append,
      List.length_cons, entryBytes_length, ih, Nat.succ_mul]
    omega

theorem flatten_map_getElem (c : Nat) (v : List Nat) :
    ∀ (j i : Nat), j < v.length → i < c →
      ((v.map (entryBytes c)).flatten)[j * c + i]? =
        some (v.getD j 0 / 256 ^ i % 256) := by
  induction v with
  | nil => intro j i hj _; simp at hj
  | cons u rest ih =>
    intro j i hj hi
    cases j with
    | zero =>
      simp only [List.map_cons, List.flatten_cons, Nat.zero_mul,
        Nat.zero_add, List.getD_cons_zero]
      rw [List.getElem?_append, if_pos (by rw [entryBytes_length]; exact hi)]
      exact entryBytes_getElem c u i hi
    | succ j' =>
      simp only [List.map_cons, List.flatten_cons, List.getD_cons_succ]
      have hidx : (j' + 1) * c + i = (entryBytes c u).length + (j' * c + i) := by
        rw [entryBytes_length, Nat.succ_mul]
        ring
      rw [hidx, List.getElem?_append_right (Nat.le_add_right _ _),
        Nat.add_sub_cancel_left]
      exact ih j' i (by simpa using hj) hi

theorem toUbyte_c_eq (nv : Nat) (h : 1 ≤ nv) :
    (((nv : Int) - 1).fdiv 8 + 1).toNat = (nv - 1) / 8 + 1 := by
  rw [Int.fdiv_eq_ediv _ (by norm_num : (0 : Int) ≤ 8)]
  omega

/-- C10: for an `nv`-qubit value register (`nv ≥ 1`) and a table that fits,
`_to_ubyte` serializes each entry into exactly `c = floor((nv - 1) / 8) + 1`
bytes in little-endian order into a buffer of `c * 2 ^ nv` bytes: byte `i`
of entry `j` sits at offset `j * c + i` and equals the entry's `i`-th group
of 8 low-order bits.  The `lda`/`adc`/`sbc`/`hash` bindings all serialize
their table with `nv` equal to the length of the value register. -/
theorem c10_to_ubyte (nv : Nat) (v : List Nat) (hnv : 1 ≤ nv)
    (hlen : v.length ≤ 2 ^ nv) :
    ∃ buf, toUbyte nv v = some buf ∧
      buf.length = ((nv - 1) / 8 + 1) * 2 ^ nv ∧
      (∀ j i : Nat, j < v.length → i < (nv - 1) / 8 + 1 →
        buf[j * ((nv - 1) / 8 + 1) + i]? =
          some (v.getD j 0 / 256 ^ i % 256)) ∧
      (∀ qi qv t : List Nat,
        ldaBuffer qi qv t = toUbyte qv.length t ∧
        adcBuffer 0 qi qv t = toUbyte qv.length t ∧
        sbcBuffer 0 qi qv t = toUbyte qv.length t ∧
        hashBuffer qv t = toUbyte qv.length t) := by
  have hwlen : ((v.map (entryBytes ((nv - 1) / 8 + 1))).flatten).length =
      v.length * ((nv - 1) / 8 + 1) :=
    flatten_map_length _ v
  have hle : v.length * ((nv - 1) / 8 + 1) ≤ ((nv - 1) / 8 + 1) * 2 ^ nv := by
    rw [mul_comm]
    exact Nat.mul_le_mul_left _ hlen
  have hub : toUbyte nv v =
      some ((v.map (entryBytes ((nv - 1) / 8 + 1))).flatten ++
        List.replicate (((nv - 1) / 8 + 1) * 2 ^ nv -
          v.length * ((nv - 1) / 8 + 1)) 0) := by
    simp only [toUbyte]
    rw [toUbyte_c_eq nv hnv, hwlen, if_pos hle]
  refine ⟨_, hub, ?_, ?_, fun qi qv t => ⟨rfl, rfl, rfl, rfl⟩⟩
  · rw [List.length_append, List.length_replicate, hwlen]
    omega
  · intro j i hj hi
    have hidx : j * ((nv - 1) / 8 + 1) + i <
        v.length * ((nv - 1) / 8 + 1) := by
      have h1 : j * ((nv - 1) / 8 + 1) + i < (j + 1) * ((nv - 1) / 8 + 1) := by
        rw [Nat.succ_mul]
        omega
      have h2 : (j + 1) * ((nv - 1) / 8 + 1) ≤
          v.length * ((nv - 1) / 8 + 1) :=
        Nat.mul_le_mul_right _ hj
      omega
    rw [List.getElem?_append, if_pos (by rw [hwlen]; exact hidx)]
    exact flatten_map_getElem _ v j i hj hi

/-- C10 witness: a 9-qubit value register gives 2-byte entries; the table
[258, 772] serializes little-endian into a 1024-byte buffer. -/
theorem c10_to_ubyte_witness :
    ∃ buf, toUbyte 9 [258, 772] = some buf ∧
      buf.length = ((9 - 1) / 8 + 1) * 2 ^ 9 ∧
      (∀ j i : Nat, j < [258, 772].length → i < (9 - 1) / 8 + 1 →
        buf[j * ((9 - 1) / 8 + 1) + i]? =
          some ([258, 772].getD j 0 / 256 ^ i % 256)) ∧
      (∀ qi qv t : List Nat,
        ldaBuffer qi qv t = toUbyte qv.length t ∧
        adcBuffer 0 qi qv t = toUbyte qv.length t ∧
        sbcBuffer 0 qi qv t = toUbyte qv.length t ∧
        hashBuffer qv t = toUbyte qv.length t) :=
  c10_to_ubyte 9 [258, 772] (by norm_num) (by norm_num)

theorem mem_restQubits (n : Nat) (qs : List Nat) (j : Nat) :
    j ∈ restQubits n qs ↔ j < n ∧ j ∉ qs := by
  simp [restQubits, List.mem_filter, List.mem_range]

theorem restQubits_nodup (n : Nat) (qs : List Nat) : (restQubits n qs).Nodup :=
  (List.nodup_range n).filter _

theorem setBits_testBit_false (qs : List Nat) :
    ∀ (a j : Nat), j ∉ qs → (setBits qs a).testBit j = false := by
  induction qs with
  | nil => intro a j _; simp [setBits]
  | cons q rest ih =>
    intro a j h
    have hq : q ≠ j := fun he => h (he ▸ List.mem_cons_self q rest)
    have h2 : j ∉ rest := fun hm => h (List.mem_cons_of_mem q hm)
    simp only [setBits, Nat.testBit_lor, ih (a / 2) j h2, Bool.or_false]
    by_cases hb : a.testBit 0
    · rw [if_pos hb, Nat.testBit_two_pow_of_ne hq]
    · rw [if_neg hb]
      simp

theorem extractBits_setBits_lor (qs : List Nat) :
    ∀ (a y : Nat), qs.Nodup → (∀ j ∈ qs, y.testBit j = false) →
      extractBits qs (setBits qs a ||| y) = a % 2 ^ qs.length := by
  induction qs with
  | nil => intro a y _ _; simp [extractBits, Nat.mod_one]
  | cons q rest ih =>
    intro a y hnd hy
    have hqrest : q ∉ rest := (List.nodup_cons.mp hnd).1
    have hndrest : rest.Nodup := (List.nodup_cons.mp hnd).2
    have hbitq : (setBits (q :: rest) a ||| y).testBit q = a.testBit 0 := by
      simp only [setBits, Nat.testBit_lor,
        setBits_testBit_false rest (a / 2) q hqrest,
        hy q (List.mem_cons_self q rest), Bool.or_false]
      by_cases hb : a.testBit 0
      · rw [if_pos hb, Nat.testBit_two_pow_self, hb]
      · rw [if_neg hb]
        simp [hb]
    have hrearr : setBits (q :: rest) a ||| y =
        setBits rest (a / 2) ||| ((if a.testBit 0 then 2 ^ q else 0) ||| y) := by
      simp only [setBits]
      rw [Nat.lor_comm (if a.testBit 0 then 2 ^ q else 0) (setBits rest (a / 2)),
        Nat.lor_assoc]
    have hy' : ∀ j ∈ rest,
        ((if a.testBit 0 then 2 ^ q else 0) ||| y).testBit j = false := by
      intro j hj
      have hqj : q ≠ j := fun he => hqrest (he ▸ hj)
      rw [Nat.testBit_lor, hy j (List.mem_cons_of_mem q hj), Bool.or_false]
      by_cases hb : a.testBit 0
      · rw [if_pos hb, Nat.testBit_two_pow_of_ne hqj]
      · rw [if_neg hb]
        simp
    simp only [extractBits, List.length_cons]
    rw [hbitq, hrearr, ih (a / 2) _ hndrest hy']
    rw [pow_succ', Nat.mod_mul]
    simp only [Nat.testBit_zero, decide_eq_true_eq]
    by_cases h2 : a % 2 = 1
    · rw [if_pos h2, h2]
    · rw [if_neg h2]
      omega

theorem extractBits_combine_left (n : Nat) (qs : List Nat) (a r : Nat)
    (hnd : qs.Nodup) (ha : a < 2 ^ qs.length) :
    extractBits qs (combineBits n qs a r) = a := by
  unfold combineBits
  rw [extractBits_setBits_lor qs a (setBits (restQubits n qs) r) hnd
      (fun j hj => setBits_testBit_false _ r j
        (fun hmem => ((mem_restQubits n qs j).mp hmem).2 hj)),
    Nat.mod_eq_of_lt ha]

theorem extractBits_combine_right (n : Nat) (qs : List Nat) (a r : Nat)
    (hr : r < 2 ^ (restQubits n qs).length) :
    extractBits (restQubits n qs) (combineBits n qs a r) = r := by
  unfold combineBits
  rw [Nat.lor_comm,
    extractBits_setBits_lor _ r (setBits qs a) (restQubits_nodup n qs)
      (fun j hj => setBits_testBit_false qs a j
        ((mem_restQubits n qs j).mp hj).2),
    Nat.mod_eq_of_lt hr]

theorem combineBits_lt (n : Nat) (qs : List Nat) (a r : Nat)
    (hqn : ∀ j ∈ qs, j < n) :
    combineBits n qs a r < 2 ^ n := by
  refine Nat.lt_pow_two_of_testBit _ (fun i hi => ?_)
  unfold combineBits
  rw [Nat.testBit_lor,
    setBits_testBit_false qs a i (fun hm => by have := hqn i hm; omega),
    setBits_testBit_false _ r i
      (fun hm => by have := ((mem_restQubits n qs i).mp hm).1; omega)]
  rfl

/-- Pivot-based Schmidt factoring is correct on a separable state: sampling
one factor at the pivot's remainder value and dividing the other sample by
the pivot amplitude reconstructs every amplitude. -/
theorem pivot_reconstruction (reg : Register) (qs : List Nat) (b0 : Nat)
    (hnodup : qs.Nodup) (hqn : ∀ j ∈ qs, j < reg.numQubits)
    (hsep : Separable reg qs)
    (hb0lt : b0 < 2 ^ reg.numQubits) (hb0nz : reg.amps b0 ≠ Cq.zero) :
    ∀ b, b < 2 ^ reg.numQubits →
      cmul
        (reg.amps (combineBits reg.numQubits qs (extractBits qs b)
          (extractBits (restQubits reg.numQubits qs) b0)))
        (cdiv
          (reg.amps (combineBits reg.numQubits qs (extractBits qs b0)
            (extractBits (restQubits reg.numQubits qs) b)))
          (reg.amps b0)) = reg.amps b := by
  obtain ⟨A, B, hAB⟩ := hsep
  intro b hb
  have hA0 : reg.amps b0 =
      cmul (A (extractBits qs b0))
        (B (extractBits (restQubits reg.numQubits qs) b0)) := hAB b0 hb0lt
  have h1 : normSq (reg.amps b0) ≠ 0 := normSq_ne_zero_of_ne hb0nz
  rw [hA0, normSq_cmul] at h1
  obtain ⟨hA0nz, hB0nz⟩ := mul_ne_zero_iff.mp h1
  have he1 : reg.amps (combineBits reg.numQubits qs (extractBits qs b)
      (extractBits (restQubits reg.numQubits qs) b0)) =
      cmul (A (extractBits qs b))
        (B (extractBits (restQubits reg.numQubits qs) b0)) := by
    rw [hAB _ (combineBits_lt _ _ _ _ hqn),
      extractBits_combine_left _ _ _ _ hnodup (extractBits_lt qs b),
      extractBits_combine_right _ _ _ _
        (extractBits_lt (restQubits reg.numQubits qs) b0)]
  have he2 : reg.amps (combineBits reg.numQubits qs (extractBits qs b0)
      (extractBits (restQubits reg.numQubits qs) b)) =
      cmul (A (extractBits qs b0))
        (B (extractBits (restQubits reg.numQubits qs) b)) := by
    rw [hAB _ (combineBits_lt _ _ _ _ hqn),
      extractBits_combine_left _ _ _ _ hnodup (extractBits_lt qs b0),
      extractBits_combine_right _ _ _ _
        (extractBits_lt (restQubits reg.numQubits qs) b)]
  rw [he1, he2, hA0, cdiv_cmul_cmul_left _ _ _ hA0nz,
    cmul_factor_identity _ _ _ hB0nz]
  exact (hAB b hb).symm

/-- Behaviour of the spec-modelled native `Decompose` on a separable subset:
a fresh handle owns the subset register, the original handle keeps the
remainder, all other handles are untouched, and the two factors multiply
back to the original amplitudes. -/
theorem decomposeNative_spec (st2 : NativeState) (sid : Nat)
    (qs : List Nat) (reg : Register) (hlook : st2.lookup sid = some reg)
    (hsid : sid < st2.nextSid) (hnodup : qs.Nodup)
    (hqn : ∀ j ∈ qs, j < reg.numQubits) (hsep : Separable reg qs)
    (hnz : ∃ b, b < 2 ^ reg.numQubits ∧ reg.amps b ≠ Cq.zero) :
    (decomposeNative sid qs st2).1 = st2.nextSid ∧
    ∃ newReg rem,
      ((decomposeNative sid qs st2).2).lookup st2.nextSid = some newReg ∧
      ((decomposeNative sid qs st2).2).lookup sid = some rem ∧
      (∀ s' r', s' ≠ sid → s' < st2.nextSid → st2.lookup s' = some r' →
        ((decomposeNative sid qs st2).2).lookup s' = some r') ∧
      newReg.numQubits = qs.length ∧
      rem.numQubits = reg.numQubits - qs.length ∧
      (∀ b, b < 2 ^ reg.numQubits →
        cmul (newReg.amps (extractBits qs b))
          (rem.amps (extractBits (restQubits reg.numQubits qs) b)) =
          reg.amps b) := by
  obtain ⟨bw, hbw, hbnz⟩ := hnz
  have hfs : (((List.range (2 ^ reg.numQubits)).find?
      (fun b => decide (reg.amps b ≠ Cq.zero)))).isSome = true := by
    rw [List.find?_isSome]
    exact ⟨bw, List.mem_range.mpr hbw, by simpa using hbnz⟩
  obtain ⟨b0, hfind⟩ := Option.isSome_iff_exists.mp hfs
  have hb0lt : b0 < 2 ^ reg.numQubits :=
    List.mem_range.mp (List.mem_of_find?_eq_some hfind)
  have hb0nz : reg.amps b0 ≠ Cq.zero := by
    have := List.find?_some hfind
    simpa using this
  have hdn : decomposeNative sid qs st2 =
      (st2.nextSid,
        ((st2.alloc
          ⟨qs.length,
            fun a => reg.amps (combineBits reg.numQubits qs a
              (extractBits (restQubits reg.numQubits qs) b0)),
            reg.rng, reg.cfg⟩).2).set sid
          ⟨reg.numQubits - qs.length,
            fun r => cdiv (reg.amps (combineBits reg.numQubits qs
              (extractBits qs b0) r)) (reg.amps b0),
            reg.rng, reg.cfg⟩) := by
    simp only [decomposeNative, hlook, hfind, Option.getD_some]
    rfl
  rw [hdn]
  refine ⟨rfl,
    ⟨qs.length,
      fun a => reg.amps (combineBits reg.numQubits qs a
        (extractBits (restQubits reg.numQubits qs) b0)),
      reg.rng, reg.cfg⟩,
    ⟨reg.numQubits - qs.length,
      fun r => cdiv (reg.amps (combineBits reg.numQubits qs
        (extractBits qs b0) r)) (reg.amps b0),
      reg.rng, reg.cfg⟩,
    ?_, lookup_set_self _ _ _, ?_, rfl, rfl, ?_⟩
  · rw [lookup_set_ne _ _ _ _ (by omega)]
    exact lookup_alloc_self st2 _
  · intro s' r' hne hlt hl
    rw [lookup_set_ne _ _ _ _ hne, lookup_alloc_ne st2 _ _ (by omega)]
    exact hl
  · exact pivot_reconstruction reg qs b0 hnodup hqn hsep hb0lt hb0nz

theorem lookup_none_of_ge {st : NativeState} (hwf : StWF st) {s' : Nat}
    (h : st.nextSid ≤ s') : st.lookup s' = none := by
  unfold NativeState.lookup
  cases hf : st.regs.find? (fun p => p.1 == s') with
  | none => rfl
  | some p =>
    have hmem := List.mem_of_find?_eq_some hf
    have hpred := List.find?_some hf
    have hps : p.1 = s' := beq_iff_eq.mp hpred
    have := hwf p hmem
    omega

/-- C6: on a subset exactly unentangled from the remainder, `decompose`
returns a newly constructed independent register (a fresh handle, unknown to
the old table) holding exactly the subset qubits with their factor of the
state; the original handle retains its identity, now owning the remainder
with the subset qubits removed; no other register handle is invalidated; and
the two factors multiply back to the original amplitudes. -/
theorem c6_decompose (st : NativeState) (sid : Nat) (qs : List Nat)
    (reg : Register) (hwf : StWF st) (hlook : st.lookup sid = some reg)
    (hnodup : qs.Nodup) (hqn : ∀ j ∈ qs, j < reg.numQubits)
    (hsep : Separable reg qs)
    (hnz : ∃ b, b < 2 ^ reg.numQubits ∧ reg.amps b ≠ Cq.zero) :
    (decompose sid qs st).1 ≠ sid ∧
    st.lookup (decompose sid qs st).1 = none ∧
    (∀ s' r', s' ≠ sid → st.lookup s' = some r' →
      ((decompose sid qs st).2).lookup s' = some r') ∧
    ∃ newReg rem,
      ((decompose sid qs st).2).lookup (decompose sid qs st).1 =
        some newReg ∧
      ((decompose sid qs st).2).lookup sid = some rem ∧
      newReg.numQubits = qs.length ∧
      rem.numQubits = reg.numQubits - qs.length ∧
      (∀ b, b < 2 ^ reg.numQubits →
        cmul (newReg.amps (extractBits qs b))
          (rem.amps (extractBits (restQubits reg.numQubits qs) b)) =
          reg.amps b) := by
  have hsidlt : sid < st.nextSid := lookup_lt_of_wf hwf hlook
  have htemp : qrackConstruct (fun _ r => r) (-1) (-1) defaultConfig none st =
      ((initCountType 0 defaultConfig st).2,
        Except.ok (initCountType 0 defaultConfig st).1) := by
    have h1 : ¬(effQC none (-1 : Int) > -1 ∧ (-1 : Int) > -1) := by
      intro hc
      exact absurd hc.2 (by omega)
    have h2 : ¬((-1 : Int) > -1) := by omega
    have h3 : effQC none (-1 : Int) < 0 := by norm_num [effQC]
    simp only [qrackConstruct, if_neg h1, if_neg h2, if_pos h3]
  have hst2 : destroyNative st.nextSid (initCountType 0 defaultConfig st).2 =
      (⟨st.nextSid + 1, st.regs⟩ : NativeState) := by
    show (⟨st.nextSid + 1,
      ((st.nextSid, freshRegister 0 defaultConfig) :: st.regs).filter
        (fun p => !(p.1 == st.nextSid))⟩ : NativeState) =
      (⟨st.nextSid + 1, st.regs⟩ : NativeState)
    rw [List.filter_cons_of_neg (by simp), List.filter_eq_self.mpr
      (fun p hp => by simpa using Nat.ne_of_lt (hwf p hp))]
  have hdec : decompose sid qs st =
      decomposeNative sid qs (⟨st.nextSid + 1, st.regs⟩ : NativeState) := by
    simp only [decompose, htemp, initCountType_fst, hst2]
  have hlook2 : (⟨st.nextSid + 1, st.regs⟩ : NativeState).lookup sid =
      some reg := hlook
  obtain ⟨h1, newReg, rem, h2, h3, h4, h5, h6, h7⟩ :=
    decomposeNative_spec (⟨st.nextSid + 1, st.regs⟩ : NativeState) sid qs reg
      hlook2 (show sid < st.nextSid + 1 by omega) hnodup hqn hsep hnz
  have hproj : (⟨st.nextSid + 1, st.regs⟩ : NativeState).nextSid =
      st.nextSid + 1 := rfl
  rw [hproj] at h1 h2
  rw [hdec, h1]
  refine ⟨by omega, lookup_none_of_ge hwf (by omega), ?_,
    newReg, rem, h2, h3, h5, h6, h7⟩
  intro s' r' hne hl
  refine h4 s' r' hne ?_ hl
  rw [hproj]
  have := lookup_lt_of_wf hwf hl
  omega

/-- C6 witness: splitting qubit 0 off a concrete separable (product-state)
two-qubit register. -/
theorem c6_decompose_witness :
    (decompose 0 [0] st2Ex).1 ≠ 0 ∧
    st2Ex.lookup (decompose 0 [0] st2Ex).1 = none ∧
    (∀ s' r', s' ≠ 0 → st2Ex.lookup s' = some r' →
      ((decompose 0 [0] st2Ex).2).lookup s' = some r') ∧
    ∃ newReg rem,
      ((decompose 0 [0] st2Ex).2).lookup (decompose 0 [0] st2Ex).1 =
        some newReg ∧
      ((decompose 0 [0] st2Ex).2).lookup 0 = some rem ∧
      newReg.numQubits = [0].length ∧
      rem.numQubits = reg2Ex.numQubits - [0].length ∧
      (∀ b, b < 2 ^ reg2Ex.numQubits →
        cmul (newReg.amps (extractBits [0] b))
          (rem.amps (extractBits (restQubits reg2Ex.numQubits [0]) b)) =
          reg2Ex.amps b) := by
  refine c6_decompose st2Ex 0 [0] reg2Ex ?_ rfl (by simp) ?_ ?_ ?_
  · intro p hp
    rw [show st2Ex.regs = [(0, reg2Ex)] from rfl, List.mem_singleton] at hp
    subst hp
    norm_num [st2Ex]
  · intro j hj
    rw [List.mem_singleton] at hj
    subst hj
    norm_num [reg2Ex, freshRegister]
  · refine ⟨fun a => if a = 0 then Cq.one else Cq.zero,
      fun r => if r = 0 then Cq.one else Cq.zero, ?_⟩
    intro b hb
    have hn : reg2Ex.numQubits = 2 := rfl
    rw [hn] at hb ⊢
    interval_cases b <;>
      norm_num [reg2Ex, freshRegister, extractBits, restQubits, cmul,
        Cq.one, Cq.zero, Nat.testBit_succ, Nat.testBit_zero]
  · exact ⟨0, by norm_num [reg2Ex, freshRegister],
      by norm_num [reg2Ex, freshRegister, Cq.one, Cq.zero]⟩

end PyQrack
